import Mathlib

/-!
Shallow embedding of the descape crate (src/lib.rs).

Strings are modelled as `List Char` (sequences of Unicode scalar values), with
byte offsets computed explicitly from each character's UTF-8 length, exactly as
`str::char_indices` reports them.  The escape-handler capability mutates the
shared `CharIndices` iterator in Rust; here a handler receives the iterator's
remaining `(byte offset, char)` pairs and reports, next to its outcome, how
many characters it consumed, which the scanner then skips — the same net
semantics as the source's shared-cursor protocol.
-/

namespace Descape

/-- The backslash character (spelled with an escape in the source). -/
def bslash : Char := Char.ofNat 92

/-- The single-quote character. -/
def squote : Char := Char.ofNat 39

/-- The double-quote character. -/
def dquote : Char := Char.ofNat 34

/-- The backtick character. -/
def btick : Char := Char.ofNat 96

/-- The opening-brace character. -/
def lbrace : Char := Char.ofNat 123

/-- The closing-brace character. -/
def rbrace : Char := Char.ofNat 125

/-- Byte length of one character's UTF-8 encoding (`char::len_utf8`). -/
def len_utf8 (c : Char) : Nat :=
  if c.toNat < 0x80 then 1
  else if c.toNat < 0x800 then 2
  else if c.toNat < 0x10000 then 3
  else 4

/-- Total UTF-8 byte length of a character sequence (`str::len`,
`String::len`). -/
def utf8Len : List Char → Nat
  | [] => 0
  | c :: cs => len_utf8 c + utf8Len cs

/-- The pairs produced by `str::char_indices`, beginning at byte offset `i`. -/
def char_indices_from (i : Nat) : List Char → List (Nat × Char)
  | [] => []
  | c :: cs => (i, c) :: char_indices_from (i + len_utf8 c) cs

/-- `CharIndices::as_str`: the remaining characters, offsets dropped. -/
def as_str (iter : List (Nat × Char)) : List Char := iter.map Prod.snd

/-- `str::get(..n)`: the characters making up the first `n` bytes, defined
exactly when `n` bytes exist and `n` falls on a character boundary. -/
def str_get_to (n : Nat) : List Char → Option (List Char)
  | [] => if n = 0 then some [] else none
  | c :: cs =>
    if n = 0 then some []
    else if len_utf8 c ≤ n then (str_get_to (n - len_utf8 c) cs).map (c :: ·)
    else none

/-- `str::find` for a one-character pattern: the byte offset of its first
occurrence. -/
def find_byte_off (t : Char) : List Char → Option Nat
  | [] => none
  | c :: cs => if c = t then some 0 else (find_byte_off t cs).map (len_utf8 c + ·)

/-- `char::to_digit`: digit value of `c` in the given radix (used by the
source at radix 8, via `is_digit(8)` and `from_str_radix`, and radix 16). -/
def to_digit (c : Char) (radix : Nat) : Option Nat :=
  let n := c.toNat
  let d :=
    if 48 ≤ n ∧ n ≤ 57 then some (n - 48)
    else if 97 ≤ n ∧ n ≤ 122 then some (n - 97 + 10)
    else if 65 ≤ n ∧ n ≤ 90 then some (n - 65 + 10)
    else none
  d.bind fun v => if v < radix then some v else none

/-- `char::is_digit`. -/
def is_digit (c : Char) (radix : Nat) : Bool := (to_digit c radix).isSome

/-- `u32::from_str_radix`: an optional single leading plus sign, then at
least one digit in the radix; any other character, an empty digit run, or a
value exceeding `u32::MAX` is an error.  (The source's per-step checked
arithmetic fails exactly when the final value would exceed `u32::MAX`, since
the accumulator grows monotonically, so the overflow check is placed on the
final value.) -/
def from_str_radix (radix : Nat) (s : List Char) : Option Nat :=
  let digits := if s.head? = some '+' then s.tail else s
  if digits.isEmpty then none
  else
    (digits.foldl
      (fun acc c => acc.bind fun a => (to_digit c radix).map fun d => a * radix + d)
      (some 0)).bind
      fun v => if v < 2 ^ 32 then some v else none

/-- `char::from_u32`: `some` exactly on legal Unicode scalar values (below
the surrogate range, or between it and `0x110000`). -/
def from_u32 (n : Nat) : Option Char :=
  if n < 0xD800 ∨ (0xDFFF < n ∧ n < 0x110000) then some (Char.ofNat n) else none

/-- The error type of the crate: the byte index reported for an invalid
escape sequence. -/
structure InvalidEscape where
  index : Nat
deriving DecidableEq, Repr

/-- `alloc::borrow::Cow<str>` as the scanner returns it: either the borrowed
input itself or a freshly built owned buffer. -/
inductive Cow where
  | Borrowed (s : List Char)
  | Owned (s : List Char)
deriving DecidableEq, Repr

/-- Whether a `Cow` is the `Owned` variant. -/
def Cow.is_owned : Cow → Bool
  | .Borrowed _ => false
  | .Owned _ => true

/-- The `EscapeHandler` capability: given the backslash's byte offset, the
trigger character, and the iterator contents positioned after the trigger,
produce `Ok(Some c)` (replace), `Ok(None)` (delete) or `Err` (fail), together
with how many characters were consumed from the shared iterator. -/
def EscapeHandler : Type := Nat → Char → List (Nat × Char) → Except Unit (Option Char × Nat)

/-- `unescape_hex` (src/lib.rs): take the first two bytes of the remaining
input, parse them with `u32::from_str_radix(_, 16)`, convert with
`char::from_u32`. -/
def unescape_hex (s : List Char) : Option Char :=
  (str_get_to 2 s).bind fun num => (from_str_radix 16 num).bind from_u32

/-- `unescape_unicode` (src/lib.rs).  `s` is `iter.as_str()` taken before the
inner `iter.next()`, so its head is the character right after the trigger
`u`.  Brace form: `end` is the byte offset of the first closing brace in
`s[1..]`, and the parsed slice `&s[1..=end]` is exactly the run of characters
before that brace (rendered with `takeWhile`); the returned skip count is
`end + 1`.  Otherwise: parse the first four bytes `s.get(..4)`; skip 3. -/
def unescape_unicode (s : List Char) : Option (Char × Nat) :=
  match s with
  | [] => none
  | next :: rest =>
    if next = lbrace then
      match find_byte_off rbrace rest with
      | none => none
      | some endOff =>
        let num := rest.takeWhile (fun c => c ≠ rbrace)
        (from_str_radix 16 num).bind fun codepoint =>
          (from_u32 codepoint).map fun v => (v, endOff + 1)
    else
      (str_get_to 4 (next :: rest)).bind fun next_four =>
        (from_str_radix 16 next_four).bind fun codepoint =>
          (from_u32 codepoint).map fun v => (v, 3)

/-- `unescape_oct` (src/lib.rs): `end` counts how many of the next (at most
two) characters are octal digits; that many leading bytes — necessarily
those same ASCII digit characters — are parsed as base 8 (0 when the run is
empty), and the trigger digit is added at the top of the number
(`chr as u32 - '0' as u32`, rendered as truncated `Nat` subtraction; the
sole caller guards `chr` to be an octal digit).  The skip count is `end`. -/
def unescape_oct (chr : Char) (s : List Char) : Option (Char × Nat) :=
  let digits := (s.take 2).takeWhile (fun c => is_digit c 8)
  let codepoint0 := if digits.isEmpty then some 0 else from_str_radix 8 digits
  codepoint0.bind fun cp0 =>
    (from_u32 (cp0 + (chr.toNat - 48) * 8 ^ digits.length)).map fun v => (v, digits.length)

/-- `DefaultHandler::escape` (src/lib.rs): dispatch on the trigger character;
the `u` arm consumes one character inside `unescape_unicode` and then skips
`skip` more (total `1 + skip`), the `x` arm skips two, the octal arm skips
the count `unescape_oct` returns. -/
def DefaultHandler.escape : EscapeHandler := fun _idx chr iter =>
  if chr = 'a' then .ok (some (Char.ofNat 0x07), 0)
  else if chr = 'b' then .ok (some (Char.ofNat 0x08), 0)
  else if chr = 't' then .ok (some (Char.ofNat 0x09), 0)
  else if chr = 'n' then .ok (some (Char.ofNat 0x0A), 0)
  else if chr = 'v' then .ok (some (Char.ofNat 0x0B), 0)
  else if chr = 'f' then .ok (some (Char.ofNat 0x0C), 0)
  else if chr = 'r' then .ok (some (Char.ofNat 0x0D), 0)
  else if chr = 'e' then .ok (some (Char.ofNat 0x1B), 0)
  else if chr = btick then .ok (some btick, 0)
  else if chr = squote then .ok (some squote, 0)
  else if chr = dquote then .ok (some dquote, 0)
  else if chr = bslash then .ok (some bslash, 0)
  else if chr = 'u' then
    match unescape_unicode (as_str iter) with
    | some (c, skip) => .ok (some c, 1 + skip)
    | none => .error ()
  else if chr = 'x' then
    match unescape_hex (as_str iter) with
    | some res => .ok (some res, 2)
    | none => .error ()
  else if is_digit chr 8 then
    match unescape_oct chr (as_str iter) with
    | some (c, skip) => .ok (some c, skip)
    | none => .error ()
  else .error ()

/-- The scanner loop of `to_unescaped_with_mono` (src/lib.rs).  `skip` is the
number of characters the handler consumed that the shared iterator has still
to pass over (pending `iter.next()` calls); the loop proper runs at
`skip = 0`.  On a non-backslash character the owned buffer is extended when
it exists, otherwise the borrowed window `seen` grows.  On a backslash the
owned buffer is materialized from `seen` (`get_or_insert_with`); if no
trigger character follows, the reported index is `owned.len()` — the byte
length of the partially built buffer — exactly as in the source; otherwise
the handler runs, `Err` aborts with the backslash's offset `index`, and
`Ok` pushes the replacement (if any) and continues after the consumed
characters. -/
def to_unescaped_loop (this : List Char) (callback : EscapeHandler) :
    List (Nat × Char) → Nat → List Char → Option (List Char) → Except InvalidEscape Cow
  | [], _, _seen, owned =>
    match owned with
    | some string => .ok (.Owned string)
    | none => .ok (.Borrowed this)
  | _ :: rest, skip + 1, seen, owned => to_unescaped_loop this callback rest skip seen owned
  | (index, chr) :: rest, 0, seen, owned =>
    if chr = bslash then
      match rest with
      | (_, tchr) :: restAfter =>
        match callback index tchr restAfter with
        | .error _ => .error ⟨index⟩
        | .ok (some res, skip) =>
          to_unescaped_loop this callback restAfter skip seen (some (owned.getD seen ++ [res]))
        | .ok (none, skip) =>
          to_unescaped_loop this callback restAfter skip seen (some (owned.getD seen))
      | [] => .error ⟨utf8Len (owned.getD seen)⟩
    else
      match owned with
      | some o => to_unescaped_loop this callback rest 0 seen (some (o ++ [chr]))
      | none => to_unescaped_loop this callback rest 0 (seen ++ [chr]) none

/-- `to_unescaped_with_mono` (src/lib.rs): run the scanner from the start of
the input with an empty borrowed window and no owned buffer. -/
def to_unescaped_with_mono (this : List Char) (callback : EscapeHandler) :
    Except InvalidEscape Cow :=
  to_unescaped_loop this callback (char_indices_from 0 this) 0 [] none

/-- `UnescapeExt::to_unescaped`: decode with the default handler. -/
def to_unescaped (this : List Char) : Except InvalidEscape Cow :=
  to_unescaped_with_mono this DefaultHandler.escape

/-- A handler that deletes every escape sequence (returns `Ok(None)` and
consumes nothing), as in the crate documentation's deletion example. -/
def delete_all : EscapeHandler := fun _ _ _ => .ok (none, 0)

/-- A handler that rejects every escape sequence. -/
def fail_all : EscapeHandler := fun _ _ _ => .error ()

/-- Value of a run of digits read left to right in the given radix (each
digit taken through `to_digit`). -/
def radixVal (radix : Nat) (l : List Char) : Nat :=
  l.foldl (fun a c => a * radix + (to_digit c radix).getD 0) 0

/-- Checks that a list does not start with an octal digit (used to phrase
where the octal decoder's greedy scan stops). -/
def head_not_oct : List Char → Bool
  | [] => true
  | c :: _ => !(is_digit c 8)

theorem as_str_char_indices (i : Nat) (l : List Char) :
    as_str (char_indices_from i l) = l := by
  induction l generalizing i with
  | nil => rfl
  | cons c cs ih => simp [char_indices_from, as_str] at ih ⊢; exact ih _

theorem char_indices_append (i : Nat) (xs ys : List Char) :
    char_indices_from i (xs ++ ys) =
      char_indices_from i xs ++ char_indices_from (i + utf8Len xs) ys := by
  induction xs generalizing i with
  | nil => simp [char_indices_from, utf8Len]
  | cons c cs ih =>
    simp only [List.cons_append, char_indices_from, utf8Len, List.append_eq]
    rw [ih, Nat.add_assoc]

theorem loop_cons_plain (this : List Char) (cb : EscapeHandler) (i : Nat) (c : Char)
    (rest : List (Nat × Char)) (seen : List Char) (owned : Option (List Char))
    (hc : ¬ c = bslash) :
    to_unescaped_loop this cb ((i, c) :: rest) 0 seen owned =
      match owned with
      | some o => to_unescaped_loop this cb rest 0 seen (some (o ++ [c]))
      | none => to_unescaped_loop this cb rest 0 (seen ++ [c]) none := by
  cases owned <;> rcases rest with _ | ⟨⟨j, tc⟩, t⟩ <;> simp [to_unescaped_loop, hc]

theorem loop_cons_escape (this : List Char) (cb : EscapeHandler) (i : Nat)
    (rest : List (Nat × Char)) (seen : List Char) (owned : Option (List Char)) :
    to_unescaped_loop this cb ((i, bslash) :: rest) 0 seen owned =
      match rest with
      | (_, tchr) :: restAfter =>
        (match cb i tchr restAfter with
         | .error _ => .error ⟨i⟩
         | .ok (some res, skip) =>
           to_unescaped_loop this cb restAfter skip seen (some (owned.getD seen ++ [res]))
         | .ok (none, skip) =>
           to_unescaped_loop this cb restAfter skip seen (some (owned.getD seen)))
      | [] => .error ⟨utf8Len (owned.getD seen)⟩ := by
  cases owned <;> rcases rest with _ | ⟨⟨j, tc⟩, t⟩ <;> simp [to_unescaped_loop]

theorem loop_literal_run (this : List Char) (cb : EscapeHandler) (p : List Char) :
    ∀ (i : Nat) (seen : List Char) (tail : List (Nat × Char)), bslash ∉ p →
      to_unescaped_loop this cb (char_indices_from i p ++ tail) 0 seen none =
        to_unescaped_loop this cb tail 0 (seen ++ p) none := by
  induction p with
  | nil => intro i seen tail _; simp [char_indices_from]
  | cons c cs ih =>
    intro i seen tail h
    have hc : ¬ (c = bslash) := fun hh => h (hh ▸ List.mem_cons_self c cs)
    simp only [char_indices_from, List.cons_append]
    rw [loop_cons_plain this cb _ _ _ _ _ hc,
      ih _ _ _ (fun hm => h (List.mem_cons_of_mem c hm))]
    simp

theorem loop_escape_err (this : List Char) (cb : EscapeHandler)
    (seen : List Char) (owned : Option (List Char)) (index j : Nat) (tchr : Char)
    (rest : List (Nat × Char)) (h : cb index tchr rest = .error ()) :
    to_unescaped_loop this cb ((index, bslash) :: (j, tchr) :: rest) 0 seen owned =
      .error ⟨index⟩ := by
  rw [loop_cons_escape]
  simp [h]

theorem loop_escape_delete (this : List Char) (cb : EscapeHandler)
    (seen : List Char) (owned : Option (List Char)) (index j skip : Nat) (tchr : Char)
    (rest : List (Nat × Char)) (h : cb index tchr rest = .ok (none, skip)) :
    to_unescaped_loop this cb ((index, bslash) :: (j, tchr) :: rest) 0 seen owned =
      to_unescaped_loop this cb rest skip seen (some (owned.getD seen)) := by
  rw [loop_cons_escape]
  simp [h]

theorem to_digit_16_lt (c : Char) (h : (to_digit c 16).isSome = true) : c.toNat < 123 := by
  simp only [to_digit] at h
  split_ifs at h <;> simp_all <;> omega

theorem len_utf8_of_digit16 (c : Char) (h : (to_digit c 16).isSome = true) :
    len_utf8 c = 1 := by
  have := to_digit_16_lt c h
  simp only [len_utf8]
  rw [if_pos (by omega)]

theorem digit16_ne_plus (c : Char) (h : (to_digit c 16).isSome = true) : c ≠ '+' := by
  intro hc
  subst hc
  exact absurd h (by decide)

theorem digit16_ne_rbrace (c : Char) (h : (to_digit c 16).isSome = true) : c ≠ rbrace := by
  intro hc
  subst hc
  exact absurd h (by decide)

theorem digit16_ne_lbrace (c : Char) (h : (to_digit c 16).isSome = true) : c ≠ lbrace := by
  intro hc
  subst hc
  exact absurd h (by decide)

theorem to_digit_8_eq (c : Char) (h : is_digit c 8 = true) :
    to_digit c 8 = some (c.toNat - 48) ∧ 48 ≤ c.toNat ∧ c.toNat ≤ 55 := by
  simp only [is_digit, to_digit] at h ⊢
  split_ifs at h ⊢ <;> simp_all <;> omega

theorem digit8_ne_plus (c : Char) (h : is_digit c 8 = true) : c ≠ '+' := by
  intro hc
  subst hc
  exact absurd h (by decide)

theorem foldl_bind_digits (radix : Nat) (l : List Char)
    (h : ∀ c ∈ l, (to_digit c radix).isSome = true) : ∀ a : Nat,
    l.foldl (fun acc c => acc.bind fun x => (to_digit c radix).map fun d => x * radix + d)
        (some a) =
      some (l.foldl (fun x c => x * radix + (to_digit c radix).getD 0) a) := by
  induction l with
  | nil => intro a; rfl
  | cons c cs ih =>
    intro a
    obtain ⟨d, hd⟩ := Option.isSome_iff_exists.mp (h c (List.mem_cons_self c cs))
    simp only [List.foldl_cons, Option.bind_some, hd, Option.map_some, Option.getD_some]
    exact ih (fun x hx => h x (List.mem_cons_of_mem c hx)) _

theorem from_str_radix_digits (radix : Nat) (l : List Char) (hne : l ≠ [])
    (hd : ∀ c ∈ l, (to_digit c radix).isSome = true) :
    from_str_radix radix l =
      if radixVal radix l < 2 ^ 32 then some (radixVal radix l) else none := by
  obtain ⟨c, cs, rfl⟩ : ∃ c cs, l = c :: cs := by
    cases l with
    | nil => exact absurd rfl hne
    | cons c cs => exact ⟨c, cs, rfl⟩
  have hplus : ¬ ((c :: cs).head? = some '+') := by
    simp only [List.head?_cons, Option.some.injEq]
    intro hc
    have := hd c (List.mem_cons_self c cs)
    rw [hc] at this
    have h43 : ('+').toNat = 43 := rfl
    simp [to_digit, h43] at this
  simp only [from_str_radix, if_neg hplus, List.isEmpty_cons, Bool.false_eq_true,
    if_false, foldl_bind_digits radix _ hd 0, radixVal]
  rfl

theorem find_byte_off_run (l t : List Char) (h : ∀ c ∈ l, ¬ c = rbrace) :
    find_byte_off rbrace (l ++ rbrace :: t) = some (utf8Len l) := by
  induction l with
  | nil => simp [find_byte_off, utf8Len]
  | cons c cs ih =>
    simp only [List.cons_append, find_byte_off, utf8Len, List.append_eq,
      if_neg (h c (List.mem_cons_self c cs))]
    rw [ih (fun x hx => h x (List.mem_cons_of_mem c hx))]
    rfl

theorem takeWhile_run (l t : List Char) (h : ∀ c ∈ l, ¬ c = rbrace) :
    (l ++ rbrace :: t).takeWhile (fun c => c ≠ rbrace) = l := by
  induction l with
  | nil => simp [List.takeWhile_cons]
  | cons c cs ih =>
    simp [List.takeWhile_cons, h c (List.mem_cons_self c cs)]
    simpa using ih (fun x hx => h x (List.mem_cons_of_mem c hx))

theorem str_get_to_exact (l : List Char) (h : ∀ c ∈ l, len_utf8 c = 1) :
    str_get_to l.length l = some l := by
  induction l with
  | nil => rfl
  | cons c cs ih =>
    simp only [List.length_cons, str_get_to, h c (List.mem_cons_self c cs)]
    rw [if_neg (by omega), if_pos (by omega)]
    simp only [Nat.add_sub_cancel]
    rw [ih (fun x hx => h x (List.mem_cons_of_mem c hx))]
    rfl

theorem default_escape_u (idx : Nat) (iter : List (Nat × Char)) :
    DefaultHandler.escape idx 'u' iter =
      match unescape_unicode (as_str iter) with
      | some (c, skip) => .ok (some c, 1 + skip)
      | none => .error () := rfl

theorem default_escape_x (idx : Nat) (iter : List (Nat × Char)) :
    DefaultHandler.escape idx 'x' iter =
      match unescape_hex (as_str iter) with
      | some res => .ok (some res, 2)
      | none => .error () := rfl

theorem unescape_unicode_brace_bad (num : List Char) (v : Nat)
    (hne : num ≠ []) (hd : ∀ c ∈ num, (to_digit c 16).isSome = true)
    (hv : radixVal 16 num = v)
    (hbad : (0xD800 ≤ v ∧ v ≤ 0xDFFF) ∨ 0x10FFFF < v) :
    unescape_unicode (lbrace :: (num ++ [rbrace])) = none := by
  have hnr : ∀ c ∈ num, ¬ c = rbrace := fun c hc => digit16_ne_rbrace c (hd c hc)
  have hval : ¬ (v < 0xD800 ∨ (0xDFFF < v ∧ v < 0x110000)) := by omega
  simp only [unescape_unicode, if_pos rfl]
  rw [find_byte_off_run num [] hnr]
  simp only [takeWhile_run num [] hnr, from_str_radix_digits 16 num hne hd, hv]
  by_cases hlt : v < 2 ^ 32
  · simp [hlt, from_u32, hval]
    omega
  · simp [hlt]
    intro h
    omega

theorem unescape_unicode_four_bad (num : List Char) (v : Nat)
    (hlen : num.length = 4) (hd : ∀ c ∈ num, (to_digit c 16).isSome = true)
    (hv : radixVal 16 num = v)
    (hbad : (0xD800 ≤ v ∧ v ≤ 0xDFFF) ∨ 0x10FFFF < v) :
    unescape_unicode num = none := by
  obtain ⟨n1, nrest, rfl⟩ : ∃ n1 nrest, num = n1 :: nrest := by
    cases num with
    | nil => simp at hlen
    | cons n1 nrest => exact ⟨n1, nrest, rfl⟩
  simp only [unescape_unicode,
    if_neg (digit16_ne_lbrace n1 (hd n1 (List.mem_cons_self n1 nrest)))]
  have hget : str_get_to 4 (n1 :: nrest) = some (n1 :: nrest) := by
    rw [← hlen]
    exact str_get_to_exact _ (fun c hc => len_utf8_of_digit16 c (hd c hc))
  rw [hget]
  have hval : ¬ (v < 0xD800 ∨ (0xDFFF < v ∧ v < 0x110000)) := by omega
  simp only [Option.some_bind,
    from_str_radix_digits 16 (n1 :: nrest) (by simp) hd, hv]
  by_cases hlt : v < 2 ^ 32
  · simp [hlt, from_u32, hval]
    omega
  · simp [hlt]
    intro h
    omega

theorem from_u32_small (n : Nat) (h : n < 0xD800) : from_u32 n = some (Char.ofNat n) := by
  simp only [from_u32]
  rw [if_pos (Or.inl h)]

theorem unescape_oct_run (d : Char) (ds rest : List Char)
    (hd : is_digit d 8 = true) (hlen : ds.length ≤ 2)
    (hds : ∀ c ∈ ds, is_digit c 8 = true)
    (hstop : ds.length = 2 ∨ head_not_oct rest = true) :
    unescape_oct d (ds ++ rest) = some (Char.ofNat (radixVal 8 (d :: ds)), ds.length) ∧
      radixVal 8 (d :: ds) < 512 := by
  obtain ⟨hd8, hd48, hd55⟩ := to_digit_8_eq d hd
  rcases ds with _ | ⟨c1, _ | ⟨c2, _ | ⟨c3, t⟩⟩⟩
  · -- no further octal digit is consumed
    have hstop' : head_not_oct rest = true := by
      rcases hstop with h | h
      · simp at h
      · exact h
    have hdig : (rest.take 2).takeWhile (fun c => is_digit c 8) = [] := by
      rcases rest with _ | ⟨r0, rt⟩
      · rfl
      · simp only [head_not_oct, Bool.not_eq_true'] at hstop'
        simp [List.takeWhile_cons, hstop']
    have hval0 : radixVal 8 [d] = d.toNat - 48 := by simp [radixVal, hd8]
    refine ⟨?_, by rw [hval0]; omega⟩
    simp only [List.nil_append, unescape_oct, hdig, List.isEmpty_nil, if_true,
      Option.some_bind, List.length_nil, pow_zero, Nat.mul_one, Nat.zero_add, hval0]
    rw [from_u32_small _ (by omega)]
    rfl
  · -- exactly one further octal digit
    have hc1b : is_digit c1 8 = true := hds c1 (by simp)
    obtain ⟨hc18, hc148, hc155⟩ := to_digit_8_eq c1 hc1b
    have hstop' : head_not_oct rest = true := by
      rcases hstop with h | h
      · simp at h
      · exact h
    have hdig : (((c1 :: rest).take 2)).takeWhile (fun c => is_digit c 8) = [c1] := by
      rcases rest with _ | ⟨r0, rt⟩
      · simp [List.takeWhile_cons, hc1b]
      · simp only [head_not_oct, Bool.not_eq_true'] at hstop'
        simp [List.takeWhile_cons, hc1b, hstop']
    have hone : from_str_radix 8 [c1] = some (c1.toNat - 48) := by
      rw [from_str_radix_digits 8 [c1] (by simp)
        (by intro c hc; simp at hc; subst hc; simp [hc18])]
      rw [if_pos (by simp [radixVal, hc18]; omega)]
      simp [radixVal, hc18]
    have hval1 : radixVal 8 [d, c1] = (d.toNat - 48) * 8 + (c1.toNat - 48) := by
      simp [radixVal, hd8, hc18]
    refine ⟨?_, by rw [hval1]; omega⟩
    simp only [List.cons_append, List.nil_append, unescape_oct, hdig,
      List.isEmpty_cons, Bool.false_eq_true, if_false, hone, Option.some_bind,
      List.length_cons, List.length_nil]
    rw [from_u32_small _ (by omega)]
    have harg : c1.toNat - 48 + (d.toNat - 48) * 8 ^ (0 + 1) = radixVal 8 [d, c1] := by
      rw [hval1]
      ring_nf
    rw [harg]
    rfl
  · -- two further octal digits: the greedy scan stops after them
    have hc1b : is_digit c1 8 = true := hds c1 (by simp)
    have hc2b : is_digit c2 8 = true := hds c2 (by simp)
    obtain ⟨hc18, hc148, hc155⟩ := to_digit_8_eq c1 hc1b
    obtain ⟨hc28, hc248, hc255⟩ := to_digit_8_eq c2 hc2b
    have hdig : (((c1 :: c2 :: rest).take 2)).takeWhile (fun c => is_digit c 8) = [c1, c2] := by
      simp [List.takeWhile_cons, hc1b, hc2b]
    have htwo : from_str_radix 8 [c1, c2] = some ((c1.toNat - 48) * 8 + (c2.toNat - 48)) := by
      rw [from_str_radix_digits 8 [c1, c2] (by simp)
        (by intro c hc; simp at hc; rcases hc with rfl | rfl <;> simp [hc18, hc28])]
      rw [if_pos (by simp [radixVal, hc18, hc28]; omega)]
      simp [radixVal, hc18, hc28]
    have hval2 : radixVal 8 [d, c1, c2] =
        ((d.toNat - 48) * 8 + (c1.toNat - 48)) * 8 + (c2.toNat - 48) := by
      simp [radixVal, hd8, hc18, hc28]
    refine ⟨?_, by rw [hval2]; omega⟩
    simp only [List.cons_append, List.nil_append, unescape_oct, hdig,
      List.isEmpty_cons, Bool.false_eq_true, if_false, htwo, Option.some_bind,
      List.length_cons, List.length_nil]
    rw [from_u32_small _ (by omega)]
    have harg : (c1.toNat - 48) * 8 + (c2.toNat - 48) + (d.toNat - 48) * 8 ^ (0 + 1 + 1) =
        radixVal 8 [d, c1, c2] := by
      rw [hval2]
      ring_nf
    rw [harg]
    rfl
  · simp only [List.length_cons] at hlen
    omega

theorem loop_owned_ok (this : List Char) (cb : EscapeHandler) :
    ∀ (n : Nat) (iter : List (Nat × Char)) (skip : Nat) (seen o : List Char) (r : Cow),
      iter.length ≤ n → to_unescaped_loop this cb iter skip seen (some o) = .ok r →
      r.is_owned = true := by
  intro n
  induction n with
  | zero =>
    intro iter skip seen o r hlen heq
    obtain rfl : iter = [] := List.length_eq_zero.mp (Nat.le_zero.mp hlen)
    simp only [to_unescaped_loop] at heq
    cases heq
    rfl
  | succ n ih =>
    intro iter skip seen o r hlen heq
    rcases iter with _ | ⟨⟨i, c⟩, rest⟩
    · simp only [to_unescaped_loop] at heq
      cases heq
      rfl
    · rcases skip with _ | skip'
      · by_cases hc : c = bslash
        · subst hc
          rw [loop_cons_escape] at heq
          rcases rest with _ | ⟨⟨j, tc⟩, restAfter⟩
          · cases heq
          · rcases hcb : cb i tc restAfter with e | ⟨_ | res, sk⟩ <;>
              simp only [hcb, Option.getD_some] at heq
            · cases heq
            · exact ih restAfter sk seen o r (by simp at hlen ⊢; omega) heq
            · exact ih restAfter sk seen (o ++ [res]) r (by simp at hlen ⊢; omega) heq
        · rw [loop_cons_plain this cb i c rest seen (some o) hc] at heq
          exact ih rest 0 seen (o ++ [c]) r (by simp at hlen ⊢; omega) heq
      · simp only [to_unescaped_loop] at heq
        exact ih rest skip' seen o r (by simp at hlen ⊢; omega) heq

theorem loop_bslash_owned (this : List Char) (cb : EscapeHandler) :
    ∀ (iter : List (Nat × Char)) (seen : List Char) (r : Cow),
      bslash ∈ as_str iter → to_unescaped_loop this cb iter 0 seen none = .ok r →
      r.is_owned = true := by
  intro iter
  induction iter with
  | nil =>
    intro seen r hmem _
    simp [as_str] at hmem
  | cons hd rest ih =>
    obtain ⟨i, c⟩ := hd
    intro seen r hmem heq
    by_cases hc : c = bslash
    · subst hc
      rw [loop_cons_escape] at heq
      rcases rest with _ | ⟨⟨j, tc⟩, restAfter⟩
      · cases heq
      · rcases hcb : cb i tc restAfter with e | ⟨_ | res, sk⟩ <;>
          simp only [hcb, Option.getD_none] at heq
        · cases heq
        · exact loop_owned_ok this cb restAfter.length restAfter sk seen seen r
            (Nat.le_refl _) heq
        · exact loop_owned_ok this cb restAfter.length restAfter sk seen (seen ++ [res]) r
            (Nat.le_refl _) heq
    · rw [loop_cons_plain this cb i c rest seen none hc] at heq
      refine ih (seen ++ [c]) r ?_ heq
      simp only [as_str, List.map_cons, List.mem_cons] at hmem
      rcases hmem with h | h
      · exact absurd h.symm hc
      · exact h

/-- C1, code evaluation at the failing input: on the input backslash-n-backslash
the decoder fails, but the reported index is 1 — the byte length of the
partially built buffer (one byte for the decoded newline) — while the
trailing backslash that starts the malformed escape sits at byte offset 2,
as the accompanying char_indices computation shows.  The claim that the
index always equals the trailing backslash's byte offset is therefore false
of the code. -/
theorem c1_trailing_backslash_index :
    to_unescaped [bslash, 'n', bslash] = .error ⟨1⟩ ∧
      char_indices_from 0 [bslash, 'n', bslash] = [(0, bslash), (1, 'n'), (2, bslash)] :=
  ⟨rfl, rfl⟩

/-- C2: an input with no backslash decodes, with the default handler, to
`Ok` of the `Borrowed` variant holding exactly the original input; no owned
buffer is ever created on this path. -/
theorem c2_no_backslash_borrowed (s : List Char) (h : bslash ∉ s) :
    to_unescaped s = .ok (.Borrowed s) := by
  unfold to_unescaped to_unescaped_with_mono
  have h2 := loop_literal_run s DefaultHandler.escape s 0 [] [] h
  simp only [List.append_nil, List.nil_append] at h2
  rw [h2]
  rfl

theorem c2_witness : to_unescaped ['h', 'i'] = .ok (.Borrowed ['h', 'i']) :=
  c2_no_backslash_borrowed ['h', 'i'] (by decide)

/-- C3: whenever the handler returns `Err` for an escape whose backslash sits
at byte offset `index`, the scan aborts with `InvalidEscape index` — whatever
the scanner state (`seen`, `owned`) and whatever the remaining input, so no
partial output can be returned; the failure outcome carries no consumption
information, exactly as the source discards the cursor on `Err`.  The second
part instantiates this at the top level for an input whose escape follows a
backslash-free run. -/
theorem c3_fail_aborts_at_backslash :
    (∀ (cb : EscapeHandler) (this seen : List Char) (owned : Option (List Char))
        (index j : Nat) (tchr : Char) (rest : List (Nat × Char)),
        cb index tchr rest = .error () →
        to_unescaped_loop this cb ((index, bslash) :: (j, tchr) :: rest) 0 seen owned =
          .error ⟨index⟩) ∧
    (∀ (cb : EscapeHandler) (p : List Char) (tchr : Char) (tail : List Char),
        bslash ∉ p →
        cb (utf8Len p) tchr (char_indices_from (utf8Len p + 1 + len_utf8 tchr) tail) =
          .error () →
        to_unescaped_with_mono (p ++ bslash :: tchr :: tail) cb = .error ⟨utf8Len p⟩) := by
  constructor
  · intro cb this seen owned index j tchr rest h
    exact loop_escape_err this cb seen owned index j tchr rest h
  · intro cb p tchr tail hp h
    unfold to_unescaped_with_mono
    rw [char_indices_append, loop_literal_run _ cb p 0 [] _ hp]
    simp only [List.nil_append, Nat.zero_add]
    have hcif : char_indices_from (utf8Len p) (bslash :: tchr :: tail) =
        (utf8Len p, bslash) :: (utf8Len p + 1, tchr) ::
          char_indices_from (utf8Len p + 1 + len_utf8 tchr) tail := rfl
    rw [hcif]
    exact loop_escape_err _ cb p none _ _ _ _ h

theorem c3_witness :
    to_unescaped_with_mono (['a'] ++ bslash :: 'q' :: []) fail_all = .error ⟨utf8Len ['a']⟩ :=
  c3_fail_aborts_at_backslash.2 fail_all ['a'] 'q' [] (by decide) rfl

/-- C4, code evaluation at the failing input: the hex decoder does not fail
on a plus sign; decoding backslash-x-plus-5 succeeds and yields U+0005,
because u32::from_str_radix accepts one leading plus sign, although the plus
sign is not a hex digit (second conjunct). -/
theorem c4_hex_accepts_plus_sign :
    to_unescaped [bslash, 'x', '+', '5'] = .ok (.Owned [Char.ofNat 5]) ∧
      to_digit '+' 16 = none :=
  ⟨rfl, rfl⟩

/-- C5, code evaluation at the failing inputs: neither Unicode form fails on
a plus sign before the digits; the braced input decodes to `A` and the
four-character form parses plus-1-2-3 as 0x123, although the plus sign is
not a hex digit (last conjunct). -/
theorem c5_unicode_accepts_plus_sign :
    to_unescaped [bslash, 'u', lbrace, '+', '4', '1', rbrace] = .ok (.Owned ['A']) ∧
      to_unescaped [bslash, 'u', '+', '1', '2', '3'] = .ok (.Owned [Char.ofNat 0x123]) ∧
      to_digit '+' 16 = none :=
  ⟨rfl, rfl, rfl⟩

/-- C6: for both Unicode escape forms, a well-formed run of hex digits whose
value lands in the surrogate range or above U+10FFFF makes the whole decode
fail with `InvalidEscape` at the byte offset of the backslash (here: the
UTF-8 length of the escape-free text before it), never a runtime fault. -/
theorem c6_illegal_scalar_invalid_escape (p num : List Char) (v : Nat)
    (hp : bslash ∉ p) (hne : num ≠ [])
    (hd : ∀ c ∈ num, (to_digit c 16).isSome = true)
    (hv : radixVal 16 num = v)
    (hbad : (0xD800 ≤ v ∧ v ≤ 0xDFFF) ∨ 0x10FFFF < v) :
    to_unescaped (p ++ bslash :: 'u' :: lbrace :: (num ++ [rbrace])) = .error ⟨utf8Len p⟩ ∧
      (num.length = 4 → to_unescaped (p ++ bslash :: 'u' :: num) = .error ⟨utf8Len p⟩) := by
  constructor
  · have hu1 : unescape_unicode (lbrace :: (num ++ [rbrace])) = none :=
      unescape_unicode_brace_bad num v hne hd hv hbad
    unfold to_unescaped to_unescaped_with_mono
    rw [char_indices_append, loop_literal_run _ _ p 0 [] _ hp]
    simp only [List.nil_append, Nat.zero_add]
    have hcif : char_indices_from (utf8Len p) (bslash :: 'u' :: lbrace :: (num ++ [rbrace])) =
        (utf8Len p, bslash) :: (utf8Len p + 1, 'u') ::
          char_indices_from (utf8Len p + 1 + 1) (lbrace :: (num ++ [rbrace])) := rfl
    rw [hcif]
    apply loop_escape_err
    rw [default_escape_u, as_str_char_indices, hu1]
  · intro h4
    have hu2 : unescape_unicode num = none :=
      unescape_unicode_four_bad num v h4 hd hv hbad
    unfold to_unescaped to_unescaped_with_mono
    rw [char_indices_append, loop_literal_run _ _ p 0 [] _ hp]
    simp only [List.nil_append, Nat.zero_add]
    have hcif : char_indices_from (utf8Len p) (bslash :: 'u' :: num) =
        (utf8Len p, bslash) :: (utf8Len p + 1, 'u') ::
          char_indices_from (utf8Len p + 1 + 1) num := rfl
    rw [hcif]
    apply loop_escape_err
    rw [default_escape_u, as_str_char_indices, hu2]

theorem c6_witness :
    to_unescaped ([] ++ bslash :: 'u' :: lbrace :: (['D', '8', '0', '0'] ++ [rbrace])) =
        .error ⟨utf8Len []⟩ ∧
      (['D', '8', '0', '0'].length = 4 →
        to_unescaped ([] ++ bslash :: 'u' :: ['D', '8', '0', '0']) = .error ⟨utf8Len []⟩) :=
  c6_illegal_scalar_invalid_escape [] ['D', '8', '0', '0'] 0xD800
    (by decide) (by decide) (by decide) rfl (by decide)

/-- C7: the octal decoder counts the trigger digit as the first digit,
greedily takes up to two further octal digits (stopping at the first
non-octal character or after three digits in total), always succeeds with
the base-8 value of the whole 1-to-3-digit run — a value below 512, hence a
valid character — and consumes exactly the extra digits; in particular the
octal escapes 101, 0 and 11 decode to `A`, NUL and tab. -/
theorem c7_octal_decoder :
    (∀ (d : Char) (ds rest : List Char),
        is_digit d 8 = true → ds.length ≤ 2 → (∀ c ∈ ds, is_digit c 8 = true) →
        (ds.length = 2 ∨ head_not_oct rest = true) →
        unescape_oct d (ds ++ rest) = some (Char.ofNat (radixVal 8 (d :: ds)), ds.length) ∧
          radixVal 8 (d :: ds) < 512) ∧
      to_unescaped [bslash, '1', '0', '1'] = .ok (.Owned ['A']) ∧
      to_unescaped [bslash, '0'] = .ok (.Owned [Char.ofNat 0]) ∧
      to_unescaped [bslash, '1', '1'] = .ok (.Owned [Char.ofNat 9]) :=
  ⟨unescape_oct_run, rfl, rfl, rfl⟩

theorem c7_witness :
    unescape_oct '1' (['0', '1'] ++ []) = some (Char.ofNat (radixVal 8 ['1', '0', '1']), 2) ∧
      radixVal 8 ['1', '0', '1'] < 512 :=
  c7_octal_decoder.1 '1' ['0', '1'] [] (by decide) (by decide) (by decide) (by decide)

/-- C8: for every handler, once the input contains a backslash (which is
where the owned buffer is materialized), a successful decode returns the
`Owned` variant — it never reverts to `Borrowed`, even when every escape is
deleted. -/
theorem c8_owned_never_reverts (cb : EscapeHandler) (s : List Char) (r : Cow)
    (hmem : bslash ∈ s) (heq : to_unescaped_with_mono s cb = .ok r) :
    r.is_owned = true := by
  unfold to_unescaped_with_mono at heq
  exact loop_bslash_owned s cb (char_indices_from 0 s) [] r
    (by rw [as_str_char_indices]; exact hmem) heq

theorem c8_witness : Cow.is_owned (Cow.Owned ['a', 'c']) = true :=
  c8_owned_never_reverts delete_all ['a', bslash, 'b', 'c'] (Cow.Owned ['a', 'c'])
    (by decide) rfl

/-- C9: when the handler answers Delete (`Ok(None)`), the scanner appends
nothing for that escape and simply continues after whatever the handler
consumed; and decoding the four-character input a-backslash-b-c with the
all-deleting handler yields the owned string `ac`. -/
theorem c9_delete_appends_nothing :
    (∀ (cb : EscapeHandler) (this seen : List Char) (owned : Option (List Char))
        (index j skip : Nat) (tchr : Char) (rest : List (Nat × Char)),
        cb index tchr rest = .ok (none, skip) →
        to_unescaped_loop this cb ((index, bslash) :: (j, tchr) :: rest) 0 seen owned =
          to_unescaped_loop this cb rest skip seen (some (owned.getD seen))) ∧
      to_unescaped_with_mono ['a', bslash, 'b', 'c'] delete_all = .ok (.Owned ['a', 'c']) :=
  ⟨fun cb this seen owned index j skip tchr rest h =>
      loop_escape_delete this cb seen owned index j skip tchr rest h, rfl⟩

theorem c9_witness :
    to_unescaped_loop [] delete_all ((0, bslash) :: (1, 'b') :: []) 0 ['z'] none =
      to_unescaped_loop [] delete_all [] 0 ['z'] (some ['z']) :=
  c9_delete_appends_nothing.1 delete_all [] ['z'] none 0 1 0 'b' [] rfl

/-- C10: the default handler never answers Delete: every `Ok` outcome it
produces carries a replacement character, so with the default handler an
escape either contributes exactly one character or aborts the decode. -/
theorem c10_default_never_deletes (idx : Nat) (chr : Char) (iter : List (Nat × Char))
    (r : Option Char × Nat) (h : DefaultHandler.escape idx chr iter = .ok r) :
    r.1.isSome = true := by
  simp only [DefaultHandler.escape] at h
  by_cases ha : chr = 'a'
  · rw [if_pos ha] at h; injection h with h2; subst h2; rfl
  rw [if_neg ha] at h
  by_cases hb : chr = 'b'
  · rw [if_pos hb] at h; injection h with h2; subst h2; rfl
  rw [if_neg hb] at h
  by_cases ht : chr = 't'
  · rw [if_pos ht] at h; injection h with h2; subst h2; rfl
  rw [if_neg ht] at h
  by_cases hn : chr = 'n'
  · rw [if_pos hn] at h; injection h with h2; subst h2; rfl
  rw [if_neg hn] at h
  by_cases hv : chr = 'v'
  · rw [if_pos hv] at h; injection h with h2; subst h2; rfl
  rw [if_neg hv] at h
  by_cases hf : chr = 'f'
  · rw [if_pos hf] at h; injection h with h2; subst h2; rfl
  rw [if_neg hf] at h
  by_cases hr : chr = 'r'
  · rw [if_pos hr] at h; injection h with h2; subst h2; rfl
  rw [if_neg hr] at h
  by_cases he : chr = 'e'
  · rw [if_pos he] at h; injection h with h2; subst h2; rfl
  rw [if_neg he] at h
  by_cases hbt : chr = btick
  · rw [if_pos hbt] at h; injection h with h2; subst h2; rfl
  rw [if_neg hbt] at h
  by_cases hsq : chr = squote
  · rw [if_pos hsq] at h; injection h with h2; subst h2; rfl
  rw [if_neg hsq] at h
  by_cases hdq : chr = dquote
  · rw [if_pos hdq] at h; injection h with h2; subst h2; rfl
  rw [if_neg hdq] at h
  by_cases hbs : chr = bslash
  · rw [if_pos hbs] at h; injection h with h2; subst h2; rfl
  rw [if_neg hbs] at h
  by_cases hu : chr = 'u'
  · rw [if_pos hu] at h
    cases hh : unescape_unicode (as_str iter) with
    | none =>
      rw [hh] at h
      exact Except.noConfusion h
    | some val =>
      obtain ⟨c, skip⟩ := val
      rw [hh] at h
      injection h with h2
      subst h2
      rfl
  rw [if_neg hu] at h
  by_cases hx : chr = 'x'
  · rw [if_pos hx] at h
    cases hh : unescape_hex (as_str iter) with
    | none =>
      rw [hh] at h
      exact Except.noConfusion h
    | some res =>
      rw [hh] at h
      injection h with h2
      subst h2
      rfl
  rw [if_neg hx] at h
  by_cases ho : is_digit chr 8 = true
  · rw [if_pos ho] at h
    cases hh : unescape_oct chr (as_str iter) with
    | none =>
      rw [hh] at h
      exact Except.noConfusion h
    | some val =>
      obtain ⟨c, skip⟩ := val
      rw [hh] at h
      injection h with h2
      subst h2
      rfl
  rw [if_neg ho] at h
  exact Except.noConfusion h

theorem c10_witness : Option.isSome (some (Char.ofNat 0x0A)) = true :=
  c10_default_never_deletes 0 'n' [] (some (Char.ofNat 0x0A), 0) rfl

end Descape
